import Mathlib

/-!
Shallow embedding of `server/src/services/pdfParser.ts` from the
discharge-ingestion repository, together with theorems settling the
frozen claims about the parser.

Strings are modelled as `List Char`; JavaScript string and regex
operations used by the source are given explicit executable
definitions.  Confidence arithmetic is modelled in `ℚ`: the float
penalties used by the source (0.1 / 0.2) accumulate an error far below
the 0.005 rounding threshold of `Math.round(x * 100) / 100`, so the
rational computation and the float computation round to the same
two-decimal value on every reachable score.
-/

/-- Convert a string literal to the `List Char` representation. -/
def s2l (s : String) : List Char := s.data

/-- The ECMAScript `\s` character class (WhiteSpace ∪ LineTerminator),
also the set stripped by `String.prototype.trim`. -/
def isJsWs (c : Char) : Bool :=
  let n := c.toNat
  (9 ≤ n && n ≤ 13) || n = 32 || n = 160 || n = 0x1680 ||
  (0x2000 ≤ n && n ≤ 0x200a) || n = 0x2028 || n = 0x2029 ||
  n = 0x202f || n = 0x205f || n = 0x3000 || n = 0xfeff

/-- The ECMAScript `\d` character class. -/
def isDigitChar (c : Char) : Bool :=
  48 ≤ c.toNat && c.toNat ≤ 57

/-- ASCII uppercase letter (the `[A-Z]` character class). -/
def isUpperAZ (c : Char) : Bool :=
  65 ≤ c.toNat && c.toNat ≤ 90

/-- ASCII lowercase letter. -/
def isLowerAZ (c : Char) : Bool :=
  97 ≤ c.toNat && c.toNat ≤ 122

/-- The ECMAScript `\w` word-character class `[A-Za-z0-9_]`. -/
def isWordChar (c : Char) : Bool :=
  isUpperAZ c || isLowerAZ c || isDigitChar c || c = '_'

/-- ASCII lowering, the fragment of `String.prototype.toLowerCase`
relevant to the parser's case-insensitive comparisons. -/
def asciiLower (c : Char) : Char :=
  if isUpperAZ c then Char.ofNat (c.toNat + 32) else c

/-- ASCII raising, the fragment of `String.prototype.toUpperCase`
relevant to the parser's credential rewriting. -/
def asciiUpper (c : Char) : Char :=
  if isLowerAZ c then Char.ofNat (c.toNat - 32) else c

/-- `String.prototype.trimStart` / the left half of `trim`. -/
def trimLeft (l : List Char) : List Char := l.dropWhile isJsWs

/-- `String.prototype.trimEnd` / the right half of `trim`. -/
def trimRight (l : List Char) : List Char := (l.reverse.dropWhile isJsWs).reverse

/-- `String.prototype.trim`. -/
def trimList (l : List Char) : List Char := trimRight (trimLeft l)

/-- Index of the leftmost occurrence of `needle` in `hay`
(`String.prototype.indexOf` without its `-1` encoding). -/
def indexOfSub? (needle : List Char) : List Char → Option Nat
  | [] => if needle.isPrefixOf ([] : List Char) then some 0 else none
  | c :: t =>
    if needle.isPrefixOf (c :: t) then some 0
    else (indexOfSub? needle t).map (· + 1)

/-- `String.prototype.indexOf`, with `-1` for "not found". -/
def jsIndexOf (needle hay : List Char) : Int :=
  match indexOfSub? needle hay with
  | some i => (i : Int)
  | none => -1

/-- `String.prototype.indexOf` with a `fromIndex` argument. -/
def jsIndexOfFrom (needle hay : List Char) (start : Int) : Int :=
  let f := (max 0 (min start (hay.length : Int))).toNat
  match indexOfSub? needle (hay.drop f) with
  | some i => ((f + i : Nat) : Int)
  | none => -1

/-- `String.prototype.lastIndexOf`, with `-1` for "not found". -/
def jsLastIndexOf (needle hay : List Char) : Int :=
  match (((List.range (hay.length + 1)).filter
      (fun i => needle.isPrefixOf (hay.drop i))).getLast?) with
  | some i => (i : Int)
  | none => -1

/-- `String.prototype.substring start end_`: arguments are clamped to
`[0, length]` and swapped when `start > end_`. -/
def subJS (l : List Char) (a b : Int) : List Char :=
  let len : Int := l.length
  let a' := max 0 (min a len)
  let b' := max 0 (min b len)
  ((l.take (max a' b').toNat).drop (min a' b').toNat)

/-- One-argument `String.prototype.substring start`. -/
def subJSFrom (l : List Char) (a : Int) : List Char :=
  subJS l a (l.length : Int)

/-- `text.split('\n')` on the character-list representation. -/
def splitLines : List Char → List (List Char)
  | [] => [[]]
  | c :: rest =>
    if c = '\n' then [] :: splitLines rest
    else
      match splitLines rest with
      | [] => [[c]]
      | h :: t => (c :: h) :: t

theorem dropWhile_len_le (p : Char → Bool) (l : List Char) :
    (l.dropWhile p).length ≤ l.length := by
  induction l with
  | nil => simp [List.dropWhile]
  | cons c t ih =>
    simp only [List.dropWhile]
    split
    · exact Nat.le_trans ih (Nat.le_succ _)
    · exact Nat.le_refl _

/-- Does the list start with a whitespace character? -/
def headIsWs : List Char → Bool
  | [] => false
  | d :: _ => isJsWs d

/-- State machine realizing `line.replace(/\s*\|\s*\x2fg, ' ')`: a
whitespace run is buffered in `pending` until it is known whether a
pipe follows (then run + pipe + trailing whitespace become one space)
or not (then the run is emitted unchanged).  `skipping` is set right
after a replaced pipe, while its trailing `\s*` is being consumed. -/
def rpAux (skipping : Bool) (pending : List Char) : List Char → List Char
  | [] => pending
  | c :: rest =>
    if isJsWs c then
      if skipping then rpAux true [] rest
      else rpAux false (pending ++ [c]) rest
    else if c = '|' then ' ' :: rpAux true [] rest
    else pending ++ c :: rpAux false [] rest

/-- `line.replace(/\s*\|\s*\x2fg, ' ')`: each pipe, with the
whitespace run around it, becomes a single space (leftmost-first
global replacement). -/
def replacePipes (l : List Char) : List Char := rpAux false [] l

/-- State machine realizing `line.replace(/\s\x7b2,\x7d\x2fg, ' ')`:
when a whitespace character is followed by another one, the whole run
becomes a single space (`skipping` consumes the rest of the run). -/
def cwAux (skipping : Bool) : List Char → List Char
  | [] => []
  | c :: rest =>
    if skipping then
      if isJsWs c then cwAux true rest
      else c :: cwAux false rest
    else
      if isJsWs c && headIsWs rest then ' ' :: cwAux true rest
      else c :: cwAux false rest

/-- `line.replace(/\s\x7b2,\x7d\x2fg, ' ')`: each whitespace run of
length at least two becomes a single space. -/
def collapseWs (l : List Char) : List Char := cwAux false l

/-- The per-line normalization applied by `parseDischargeText`:
strip pipe delimiters, collapse repeated whitespace, trim. -/
def normalizeLine (l : List Char) : List Char :=
  trimList (collapseWs (replacePipes l))

/-- Does `l` begin with the two-letter+nine-digit Epic pattern
(`EP\d\x7b9\x7d` anchored here)?  Returns the 11-character match. -/
def epicHere? (l : List Char) : Option (List Char) :=
  match l with
  | 'E' :: 'P' :: rest =>
    if (rest.take 9).length = 9 && (rest.take 9).all isDigitChar then
      some ('E' :: 'P' :: rest.take 9)
    else none
  | _ => none

/-- Leftmost-match scan: try an anchored matcher at each position,
left to right (the regex search order of `String.prototype.match`). -/
def scanFirst (here : List Char → Option (List Char)) : List Char → Option (List Char)
  | [] => none
  | c :: rest =>
    match here (c :: rest) with
    | some m => some m
    | none => scanFirst here rest

/-- Leftmost match of `/EP\d\x7b9\x7d/` (`line.match` group 1). -/
def matchEpic? (l : List Char) : Option (List Char) := scanFirst epicHere? l

/-- Does `l` begin with the date pattern `\d\x7b2\x7d-\d\x7b2\x7d-\d\x7b4\x7d`?
Returns the 10-character match. -/
def dateHere? (l : List Char) : Option (List Char) :=
  match l with
  | a :: b :: '-' :: c :: d :: '-' :: e :: f :: g :: h :: _ =>
    if [a, b, c, d, e, f, g, h].all isDigitChar then
      some [a, b, '-', c, d, '-', e, f, g, h]
    else none
  | _ => none

/-- Leftmost match of `/(\d\x7b2\x7d-\d\x7b2\x7d-\d\x7b4\x7d)/`. -/
def matchDate? (l : List Char) : Option (List Char) := scanFirst dateHere? l

/-- Anchored match of `/^\s*\(missing\)\s*\x2fi`; returns the full
matched text (leading whitespace, the marker in its original case,
trailing whitespace), which is what the source later skips past. -/
def missingMatch? (l : List Char) : Option (List Char) :=
  let w := l.takeWhile isJsWs
  let r := l.dropWhile isJsWs
  if (r.take 9).map asciiLower = s2l "(missing)" then
    some (w ++ r.take 9 ++ (r.drop 9).takeWhile isJsWs)
  else none

/-- Shape check for a pre-formatted phone `\d\x7b3\x7d-\d\x7b3\x7d-\d\x7b4\x7d`. -/
def phoneFmtShape (m : List Char) : Bool :=
  match m with
  | [a, b, c, '-', d, e, f, '-', g, h, i, j] =>
    [a, b, c, d, e, f, g, h, i, j].all isDigitChar
  | _ => false

/-- Anchored match of `/^\s*(\d\x7b3\x7d-\d\x7b3\x7d-\d\x7b4\x7d)/`;
returns capture group 1 (without the leading whitespace). -/
def fmtMatch? (l : List Char) : Option (List Char) :=
  let r := l.dropWhile isJsWs
  if phoneFmtShape (r.take 12) then some (r.take 12) else none

/-- Anchored match of `/^\s*(\d\x7b10\x7d)(?=\s|[A-Z])/`; returns the
ten captured digits.  The lookahead requires the run to be followed by
whitespace or an uppercase ASCII letter. -/
def rawMatch? (l : List Char) : Option (List Char) :=
  let r := l.dropWhile isJsWs
  let ds := r.take 10
  if ds.length = 10 && ds.all isDigitChar then
    match r.drop 10 with
    | c :: _ => if isJsWs c || isUpperAZ c then some ds else none
    | [] => none
  else none

/-- `XXXXXXXXXX` to `XXX-XXX-XXXX` (`d.slice` reformatting). -/
def fmtRawPhone (d : List Char) : List Char :=
  d.take 3 ++ '-' :: ((d.drop 3).take 3 ++ '-' :: d.drop 6)

/-- The credential tokens of the `\b(MD|DO|PA|NP|RN)\b\x2fi` test in
`splitPcpAndInsurance`. -/
def shortCreds : List (List Char) := [s2l "MD", s2l "DO", s2l "PA", s2l "NP", s2l "RN"]

/-- Case-insensitive prefix test (ASCII lowering both sides). -/
def ciPrefix (pat l : List Char) : Bool :=
  (l.take pat.length).map asciiLower = pat.map asciiLower

/-- Word-boundary condition before a match: start of string or a
non-word character. -/
def boundaryBefore : Option Char → Bool
  | none => true
  | some c => !isWordChar c

/-- Word-boundary condition after a match: end of string or a
non-word character. -/
def boundaryAfter : Option Char → Bool
  | none => true
  | some c => !isWordChar c

/-- One position of the `\b(MD|DO|PA|NP|RN)\b\x2fi` scan. -/
def credHere (prev : Option Char) (l : List Char) : Bool :=
  shortCreds.any (fun tok =>
    ciPrefix tok l && boundaryBefore prev && boundaryAfter (l.drop tok.length).head?)

/-- `/\b(MD|DO|PA|NP|RN)\b\x2fi.test(text)`. -/
def credTestAux (prev : Option Char) : List Char → Bool
  | [] => false
  | c :: rest => credHere prev (c :: rest) || credTestAux (some c) rest

/-- Whole-word, case-insensitive credential-token test. -/
def credTest (l : List Char) : Bool := credTestAux none l

/-- `hay.includes(needle)` (substring containment). -/
def containsSub (needle hay : List Char) : Bool :=
  (indexOfSub? needle hay).isSome

/-- The ECMAScript `.` metacharacter: any character except a line
terminator. -/
def isDotChar (c : Char) : Bool :=
  !(c = '\n' || c = '\r' || c.toNat = 0x2028 || c.toNat = 0x2029)

/-- Greedy-with-backtracking search realizing `\s+(.+)$` on `t`: the
largest `k` with `1 ≤ k ≤ bound` such that `t.take k` is whitespace and
`t.drop k` is a non-empty run of `.`-matchable characters reaching the
end; returns the `(.+)` capture. -/
def wsDotSearch (t : List Char) : Nat → Option (List Char)
  | 0 => none
  | k + 1 =>
    let suf := t.drop (k + 1)
    if !suf.isEmpty && suf.all isDotChar then some suf
    else wsDotSearch t k

/-- Anchored match of `\s+(.+)$`, returning the `(.+)` capture. -/
def wsPlusDotPlus? (t : List Char) : Option (List Char) :=
  wsDotSearch t (t.takeWhile isJsWs).length

/-- The credential alternation of `normalizeProviderName`, in source
order: `(MD|DO|PA|NP|PA-C|RN|BSN)`. -/
def CREDS : List (List Char) :=
  [s2l "MD", s2l "DO", s2l "PA", s2l "NP", s2l "PA-C", s2l "RN", s2l "BSN"]

/-- Try the credential alternatives in order at a fixed position,
each together with its `\s+(.+)$` continuation (regex backtracking
across the alternation).  Returns the matched credential text (original
case) and the `(.+)` capture. -/
def tryCreds : List (List Char) → List Char → Option (List Char × List Char)
  | [], _ => none
  | c :: cs, r2 =>
    if ciPrefix c r2 then
      match wsPlusDotPlus? (r2.drop c.length) with
      | some g3 => some (r2.take c.length, g3)
      | none => tryCreds cs r2
    else tryCreds cs r2

/-- Match of `/^([^,]+),\s+(MD|DO|PA|NP|PA-C|RN|BSN)\s+(.+)$\x2fi`
against `t`, returning the three capture groups.  `([^,]+)` can only
match up to the first comma, so the match is determined by the first
comma's position. -/
def matchWrongOrder (t : List Char) : Option (List Char × List Char × List Char) :=
  match t.findIdx? (· = ',') with
  | none => none
  | some i =>
    if i = 0 then none
    else if ((t.drop (i + 1)).takeWhile isJsWs).isEmpty then none
    else
      match tryCreds CREDS ((t.drop (i + 1)).dropWhile isJsWs) with
      | some g => some (t.take i, g.1, g.2)
      | none => none

/-- `normalizeProviderName` from the source: fix credential placement
`"Last, CRED First"` to `"Last, First CRED"`, otherwise pass the
trimmed input through. -/
def normalizeProviderName (raw : List Char) : List Char :=
  if raw = [] then []
  else
    let t := trimList raw
    match matchWrongOrder t with
    | some (g1, g2, g3) => g1 ++ s2l ", " ++ g3 ++ ' ' :: g2.map asciiUpper
    | none => t

/-- The closed disposition vocabulary, in source order. -/
def DISPOSITIONS : List (List Char) :=
  [s2l "Home", s2l "SNF", s2l "HHS", s2l "Rehab", s2l "AMA",
   s2l "Hospice", s2l "LTAC", s2l "Deceased"]

/-- The closed insurance vocabulary, in source order. -/
def INSURANCE_PATTERNS : List (List Char) :=
  [s2l "BCBS", s2l "Blue Cross", s2l "Aetna", s2l "Aetna Health",
   s2l "Humana", s2l "Humana Health", s2l "UnitedHealthcare", s2l "United",
   s2l "Cigna", s2l "Medicare", s2l "Medicaid", s2l "Self Pay",
   s2l "Self-Pay", s2l "Tricare", s2l "Kaiser"]

/-- Stable insertion keeping longer entries first (ties keep insertion
order), realizing the stable `sort((a, b) => b.length - a.length)`. -/
def insertByLen (x : List Char) : List (List Char) → List (List Char)
  | [] => [x]
  | y :: ys => if y.length < x.length then x :: y :: ys else y :: insertByLen x ys

/-- Stable descending-length sort (ECMAScript `Array.prototype.sort`
is stable). -/
def sortByLenDesc (l : List (List Char)) : List (List Char) :=
  l.foldl (fun acc x => insertByLen x acc) []

/-- The `for...of` scan of `splitPcpAndInsurance`: first sorted
pattern with a non-negative `indexOf`, together with that index. -/
def findPattern : List (List Char) → List Char → Option (List Char × Nat)
  | [], _ => none
  | p :: ps, text =>
    match indexOfSub? p text with
    | some i => some (p, i)
    | none => findPattern ps text

/-- `splitPcpAndInsurance` from the source.  `none` stands for the
JavaScript `null` PCP; `some []` stands for the empty string. -/
def splitPcpAndInsurance (text : List Char) : Option (List Char) × List Char :=
  if text = [] then (none, s2l "Unknown")
  else
    match findPattern (sortByLenDesc INSURANCE_PATTERNS) text with
    | some pi₀ =>
      let pcp := trimList (subJS text 0 (pi₀.2 : Int))
      ((if pcp = [] then none else some pcp), pi₀.1)
    | none =>
      if credTest text then (some (trimList text), s2l "Unknown")
      else (none, if trimList text = [] then s2l "Unknown" else trimList text)

/-- JavaScript truthiness of a `string | null` value: `null` and the
empty string are falsy. -/
def optTruthy : Option (List Char) → Bool
  | none => false
  | some p => !p.isEmpty

/-- `Math.max(0, Math.round(x * 100) / 100)`'s rounding half:
round to two decimal places. -/
def jsRound2 (q : ℚ) : ℚ := ((round (q * 100) : ℤ) : ℚ) / 100

/-- The tail `\s+Discharges\s+for\s+(.+)$` of the header pattern
(case-insensitive), applied after a candidate `(.+?)` split; returns
the final capture. -/
def headerTail? (rest : List Char) : Option (List Char) :=
  if (rest.takeWhile isJsWs).isEmpty then none
  else
    let r1 := rest.dropWhile isJsWs
    if ciPrefix (s2l "Discharges") r1 then
      let r2 := r1.drop 10
      if (r2.takeWhile isJsWs).isEmpty then none
      else
        let r3 := r2.dropWhile isJsWs
        if ciPrefix (s2l "for") r3 then wsPlusDotPlus? (r3.drop 3)
        else none
    else none

/-- Lazy `(.+?)` scan of `/^(.+?)\s+Discharges\s+for\s+(.+)$\x2fi`:
grow the first capture one character at a time and try the tail at
each split; returns both captures. -/
def headerScan : List Char → List Char → Option (List Char × List Char)
  | _, [] => none
  | acc, c :: rest =>
    if isDotChar c then
      match headerTail? rest with
      | some g2 => some (acc ++ [c], g2)
      | none => headerScan (acc ++ [c]) rest
    else none

/-- `ParsedDischarge` from the source.  `Option` models
`string | null`; confidence is a rational (see the header note). -/
structure ParsedDischarge where
  patientName : List Char
  epicId : List Char
  phoneNumber : Option (List Char)
  attendingPhysician : List Char
  dischargeDate : List Char
  primaryCareProvider : Option (List Char)
  insurance : List Char
  disposition : List Char
  confidence : ℚ
  rawText : List Char
deriving DecidableEq

/-- `ParseResult` from the source. -/
structure ParseResult where
  hospitalName : List Char
  reportDate : List Char
  records : List ParsedDischarge
  rawText : List Char
deriving DecidableEq

/-- Step 1 of `parseDischargeRow`: the Epic ID, `''` when absent. -/
def epicIdOf (line : List Char) : List Char := (matchEpic? line).getD []

/-- Step 2 of `parseDischargeRow`: the date, `''` when absent. -/
def dischargeDateOf (line : List Char) : List Char := (matchDate? line).getD []

/-- `epicEndIdx` of `parseDischargeRow`:
`epicId ? line.indexOf(epicId) + epicId.length : -1`. -/
def epicEndIdxOf (line : List Char) : Int :=
  if epicIdOf line = [] then -1
  else jsIndexOf (epicIdOf line) line + ((epicIdOf line).length : Int)

/-- `afterEpic` of `parseDischargeRow`: the text after the Epic ID
(`line.substring(epicEndIdx)`). -/
def afterEpicOf (line : List Char) : List Char :=
  subJSFrom line (epicEndIdxOf line)

/-- Step 3 of `parseDischargeRow`: phone extraction.  First component
is `phoneNumber`, second is the `phoneMatch` text (`match[1] || match[0]`)
that the attending extraction later skips past. -/
def phonePairOf (line : List Char) : Option (List Char) × Option (List Char) :=
  if 0 < epicEndIdxOf line then
    match (if (missingMatch? (afterEpicOf line)).isSome then none
           else fmtMatch? (afterEpicOf line)) with
    | some f => (some f, some f)
    | none =>
      match rawMatch? (afterEpicOf line) with
      | some d => (some (fmtRawPhone d), some d)
      | none => (none, missingMatch? (afterEpicOf line))
  else (none, none)

/-- Step 4 of `parseDischargeRow`: the `for...of` search (with break)
for a disposition suffix of the trimmed line. -/
def dispFoundOf (line : List Char) : Option (List Char) :=
  DISPOSITIONS.find? (fun disp => disp.isSuffixOf (trimList line))

/-- Step 4 continued: the disposition, with its `'Unknown'` default. -/
def dispositionOf (line : List Char) : List Char :=
  (dispFoundOf line).getD (s2l "Unknown")

/-- Step 5 of `parseDischargeRow`: the raw patient name
(`line.substring(0, epicIdx).trim()`), `''` when the Epic ID is absent. -/
def patientRawOf (line : List Char) : List Char :=
  if epicIdOf line = [] then []
  else trimList (subJS line 0 (jsIndexOf (epicIdOf line) line))

/-- The `pcpAndInsurance` span of step 6: the trimmed text between the
date's end and the start of the matched disposition suffix (or the line
end when the disposition is unrecognized). -/
def pcpSpanOf (line : List Char) : List Char :=
  let dateIdx := jsIndexOf (dischargeDateOf line) line
  let afterDate := subJSFrom line (dateIdx + ((dischargeDateOf line).length : Int))
  let beforeDisposition :=
    if dispositionOf line ≠ s2l "Unknown" then
      subJS afterDate 0 (jsLastIndexOf (dispositionOf line) afterDate)
    else afterDate
  trimList beforeDisposition

/-- Step 6 of `parseDischargeRow`: the middle sections, computed only
when both the date match and the Epic ID are truthy; yields
(attending text, PCP after the `missing` filter, insurance text). -/
def middleOf (line : List Char) : List Char × Option (List Char) × List Char :=
  if !(dischargeDateOf line).isEmpty && !(epicIdOf line).isEmpty then
    let dateIdx := jsIndexOf (dischargeDateOf line) line
    let epicEnd := jsIndexOf (epicIdOf line) line + ((epicIdOf line).length : Int)
    let attendingStart :=
      match (phonePairOf line).2 with
      | some ms =>
        let phoneIdx := jsIndexOfFrom ms line epicEnd
        if 0 ≤ phoneIdx then phoneIdx + (ms.length : Int) else epicEnd
      | none => epicEnd
    let attending := trimList (subJS line attendingStart dateIdx)
    let split := splitPcpAndInsurance (pcpSpanOf line)
    let pcp1 : Option (List Char) :=
      match split.1 with
      | none => none
      | some p =>
        if !p.isEmpty && containsSub (s2l "missing") (p.map asciiLower) then none
        else some p
    (attending, pcp1, split.2)
  else ([], none, [])

/-- Step 7 of `parseDischargeRow` for the PCP: normalize only a truthy
(non-null, non-empty) value. -/
def pcpFinalOf (line : List Char) : Option (List Char) :=
  match (middleOf line).2.1 with
  | some p => if p.isEmpty then some p else some (normalizeProviderName p)
  | none => none

/-- `parseDischargeRow` from the source; the field computations live
in the step helpers above, and the confidence is accumulated exactly
in the source's order of deductions. -/
def parseDischargeRow (line : List Char) : ParsedDischarge :=
  let conf1 : ℚ := if epicIdOf line = [] then 1 - 2/10 else 1
  let conf2 := if dischargeDateOf line = [] then conf1 - 2/10 else conf1
  let conf3 := if (dispFoundOf line).isSome then conf2 else conf2 - 1/10
  let conf4 := if patientRawOf line = [] then conf3 - 2/10 else conf3
  let conf5 := if optTruthy (phonePairOf line).1 then conf4 else conf4 - 1/10
  let conf6 := if optTruthy (pcpFinalOf line) then conf5 else conf5 - 1/10
  let conf7 := if (middleOf line).2.2 = s2l "Unknown" then conf6 - 1/10 else conf6
  { patientName := if patientRawOf line = [] then s2l "Unknown" else patientRawOf line
    epicId := epicIdOf line
    phoneNumber := (phonePairOf line).1
    attendingPhysician := normalizeProviderName (middleOf line).1
    dischargeDate := dischargeDateOf line
    primaryCareProvider := pcpFinalOf line
    insurance := if (middleOf line).2.2 = [] then s2l "Unknown" else (middleOf line).2.2
    disposition := dispositionOf line
    confidence := max 0 (jsRound2 conf7)
    rawText := line }

/-- The line normalization pipeline of `parseDischargeText`: split on
newlines, normalize each line, drop empties. -/
def normalizedLines (text : List Char) : List (List Char) :=
  ((splitLines text).map normalizeLine).filter (fun l => 0 < l.length)

/-- The header extraction of `parseDischargeText`: the first line whose
lowercase form contains both marker words, run through the header
pattern; defaults otherwise. -/
def headerOf (text : List Char) : List Char × List Char :=
  match (normalizedLines text).find? (fun l =>
      containsSub (s2l "hospital") (l.map asciiLower) &&
      containsSub (s2l "discharges") (l.map asciiLower)) with
  | some hl =>
    match headerScan [] hl with
    | some g => (trimList g.1, trimList g.2)
    | none => (s2l "Unknown Hospital", [])
  | none => (s2l "Unknown Hospital", [])

/-- `parseDischargeText` from the source: normalize lines, extract the
header, keep the lines containing an Epic ID, parse each. -/
def parseDischargeText (text : List Char) : ParseResult :=
  { hospitalName := (headerOf text).1
    reportDate := (headerOf text).2
    records := ((normalizedLines text).filter
        (fun l => (matchEpic? l).isSome)).map parseDischargeRow
    rawText := text }

/-! ## Basic lemmas about the parser pipeline -/

theorem parseRow_rawText (l : List Char) : (parseDischargeRow l).rawText = l := rfl

theorem parse_records (text : List Char) :
    (parseDischargeText text).records =
      ((normalizedLines text).filter (fun l => (matchEpic? l).isSome)).map
        parseDischargeRow := rfl

theorem scanFirst_some_ex (here : List Char → Option (List Char)) :
    ∀ l m, scanFirst here l = some m → ∃ i, here (l.drop i) = some m := by
  intro l
  induction l with
  | nil => intro m h; simp [scanFirst] at h
  | cons c rest ih =>
    intro m h
    simp only [scanFirst] at h
    cases hh : here (c :: rest) with
    | some m2 =>
      rw [hh] at h
      cases h
      exact ⟨0, hh⟩
    | none =>
      rw [hh] at h
      obtain ⟨i, hi⟩ := ih m h
      exact ⟨i + 1, hi⟩

theorem prefixOf_drop_indexOf {m l : List Char} {i : Nat}
    (h : m.isPrefixOf (l.drop i)) : (indexOfSub? m l).isSome := by
  induction l generalizing i with
  | nil =>
    simp only [List.drop_nil] at h
    simp [indexOfSub?, h]
  | cons c t ih =>
    cases i with
    | zero =>
      simp only [List.drop_zero] at h
      simp [indexOfSub?, h]
    | succ j =>
      simp only [List.drop_succ_cons] at h
      have := ih h
      simp only [indexOfSub?]
      split
      · simp
      · simpa [Option.isSome_map] using this

theorem epicHere_shape {l m : List Char} (h : epicHere? l = some m) :
    (∃ ds, m = 'E' :: 'P' :: ds ∧ ds.length = 9 ∧ ds.all isDigitChar = true) ∧
      m.isPrefixOf l := by
  unfold epicHere? at h
  split at h
  · next rest =>
    split at h
    · next hcond =>
      cases h
      simp only [Bool.and_eq_true, decide_eq_true_eq] at hcond
      refine ⟨⟨rest.take 9, rfl, hcond.1, hcond.2⟩, ?_⟩
      simp only [List.isPrefixOf_iff_prefix]
      obtain ⟨t, ht⟩ := List.take_prefix 9 rest
      exact ⟨t, by simp [ht]⟩
    · exact absurd h (by simp)
  · exact absurd h (by simp)

theorem matchEpic_shape {l m : List Char} (h : matchEpic? l = some m) :
    (∃ ds, m = 'E' :: 'P' :: ds ∧ ds.length = 9 ∧ ds.all isDigitChar = true) ∧
      (indexOfSub? m l).isSome := by
  obtain ⟨i, hi⟩ := scanFirst_some_ex epicHere? l m h
  obtain ⟨hshape, hpre⟩ := epicHere_shape hi
  exact ⟨hshape, prefixOf_drop_indexOf hpre⟩

/-! ## C1: the anchor gate -/

/-- Written from the spec's words for C1: does `l` begin with two
uppercase letters immediately followed by exactly nine digits? -/
def specAnchorHere (l : List Char) : Bool :=
  match l with
  | a :: b :: rest =>
    isUpperAZ a && isUpperAZ b &&
    ((rest.take 9).length = 9 && (rest.take 9).all isDigitChar)
  | _ => false

/-- Written from the spec's words for C1: does `l` contain a substring
matching two uppercase letters immediately followed by nine digits? -/
def specAnchorContains : List Char → Bool
  | [] => false
  | c :: rest => specAnchorHere (c :: rest) || specAnchorContains rest

/-- C1 fails on the code: the line `"AB123456789"` matches the spec's
generic two-uppercase-letters + nine-digits identifier pattern, yet
`parse` produces no record for it — the code requires the literal
letters `EP`. -/
theorem c1_counterexample :
    specAnchorContains (normalizeLine (s2l "AB123456789")) = true ∧
      (parseDischargeText (s2l "AB123456789")).records = [] := by
  constructor
  · decide
  · rw [parse_records]
    have hf : (normalizedLines (s2l "AB123456789")).filter
        (fun l => (matchEpic? l).isSome) = [] := by decide
    rw [hf]
    rfl

/-- C1 as amended: a record is present in the output of `parse` if and
only if its source line (after normalization) contains a substring
matching the literal characters `EP` immediately followed by nine
digits. -/
theorem c1_anchor_gate (text l : List Char) :
    (∃ r ∈ (parseDischargeText text).records, r.rawText = l) ↔
      (l ∈ normalizedLines text ∧ (matchEpic? l).isSome = true) := by
  rw [parse_records]
  constructor
  · rintro ⟨r, hr, hrl⟩
    obtain ⟨l', hl', rfl⟩ := List.mem_map.mp hr
    rw [parseRow_rawText] at hrl
    subst hrl
    exact List.mem_filter.mp hl'
  · rintro ⟨hmem, htest⟩
    exact ⟨parseDischargeRow l,
      List.mem_map_of_mem _ (List.mem_filter.mpr ⟨hmem, htest⟩),
      parseRow_rawText l⟩

/-! ## C10: record ids produced by parse -/

/-- C10: every record produced by `parse` carries an Epic ID of the
exact shape `EP` + nine digits; in particular it is non-empty, so the
identifier-missing confidence penalty can never fire on a record that
`parse` returns. -/
theorem c10_recordId (text : List Char) (r : ParsedDischarge)
    (h : r ∈ (parseDischargeText text).records) :
    ∃ ds, r.epicId = 'E' :: 'P' :: ds ∧ ds.length = 9 ∧
      ds.all isDigitChar = true := by
  rw [parse_records] at h
  obtain ⟨l, hl, rfl⟩ := List.mem_map.mp h
  have htest := (List.mem_filter.mp hl).2
  simp only [Option.isSome_iff_exists] at htest
  obtain ⟨m, hm⟩ := htest
  obtain ⟨⟨ds, hds, hlen, hdig⟩, _⟩ := matchEpic_shape hm
  refine ⟨ds, ?_, hlen, hdig⟩
  show epicIdOf l = 'E' :: 'P' :: ds
  rw [epicIdOf, hm, Option.getD_some, hds]

/-- Witness for C10 at a concrete input. -/
theorem c10_witness :
    ∃ ds, (parseDischargeRow (s2l "Doe, JohnEP12345678901-01-2024Home")).epicId =
        'E' :: 'P' :: ds ∧ ds.length = 9 ∧ ds.all isDigitChar = true := by
  apply c10_recordId (s2l "Doe, JohnEP12345678901-01-2024Home")
  rw [parse_records]
  have hf : (normalizedLines (s2l "Doe, JohnEP12345678901-01-2024Home")).filter
      (fun l => (matchEpic? l).isSome) =
      [s2l "Doe, JohnEP12345678901-01-2024Home"] := by decide
  rw [hf]
  exact List.mem_singleton.mpr rfl

/-! ## C3: totality and the whitespace-only case -/

theorem splitLines_ne_nil (s : List Char) : splitLines s ≠ [] := by
  induction s with
  | nil => simp [splitLines]
  | cons c rest ih =>
    simp only [splitLines]
    split
    · simp
    · cases h : splitLines rest with
      | nil => simp
      | cons hh t => simp

theorem splitLines_allWs {s : List Char} (hs : ∀ c ∈ s, isJsWs c = true) :
    ∀ p ∈ splitLines s, ∀ c ∈ p, isJsWs c = true := by
  induction s with
  | nil =>
    intro p hp
    simp only [splitLines, List.mem_singleton] at hp
    subst hp
    simp
  | cons a rest ih =>
    have ha : isJsWs a = true := hs a (by simp)
    have hrest : ∀ c ∈ rest, isJsWs c = true := fun c hc => hs c (by simp [hc])
    intro p hp
    simp only [splitLines] at hp
    split at hp
    · rcases List.mem_cons.mp hp with hp | hp
      · subst hp; simp
      · exact ih hrest p hp
    · cases h : splitLines rest with
      | nil => exact absurd h (splitLines_ne_nil rest)
      | cons hh t =>
        rw [h] at hp
        rcases List.mem_cons.mp hp with hp | hp
        · subst hp
          intro c hc
          rcases List.mem_cons.mp hc with rfl | hc
          · exact ha
          · exact ih hrest hh (by simp [h]) c hc
        · exact ih hrest p (by rw [h]; exact List.mem_cons_of_mem hh hp)

theorem rpAux_allWs {l : List Char} (h : ∀ c ∈ l, isJsWs c = true) :
    ∀ pending, rpAux false pending l = pending ++ l := by
  induction l with
  | nil => intro pending; simp [rpAux]
  | cons c rest ih =>
    intro pending
    have hc : isJsWs c = true := h c (by simp)
    have hrest : ∀ c ∈ rest, isJsWs c = true := fun d hd => h d (by simp [hd])
    simp only [rpAux, hc, if_true, if_false]
    rw [ih hrest]
    simp

theorem replacePipes_allWs {l : List Char} (h : ∀ c ∈ l, isJsWs c = true) :
    replacePipes l = l := by
  rw [replacePipes, rpAux_allWs h]
  simp

theorem cwAux_allWs {l : List Char} (h : ∀ c ∈ l, isJsWs c = true) :
    ∀ b, ∀ c ∈ cwAux b l, isJsWs c = true := by
  induction l with
  | nil => intro b c hc; simp [cwAux] at hc
  | cons a rest ih =>
    intro b c hc
    have ha : isJsWs a = true := h a (by simp)
    have hrest : ∀ d ∈ rest, isJsWs d = true := fun d hd => h d (by simp [hd])
    cases b with
    | true =>
      simp only [cwAux, ha, if_true] at hc
      exact ih hrest true c hc
    | false =>
      simp only [cwAux] at hc
      by_cases hcond : (isJsWs a && headIsWs rest) = true
      · rw [if_pos hcond] at hc
        rcases List.mem_cons.mp hc with rfl | hc
        · decide
        · exact ih hrest true c hc
      · rw [if_neg hcond] at hc
        rcases List.mem_cons.mp hc with rfl | hc
        · exact ha
        · exact ih hrest false c hc

theorem dropWhile_all {p : Char → Bool} {l : List Char}
    (h : ∀ c ∈ l, p c = true) : l.dropWhile p = [] := by
  induction l with
  | nil => rfl
  | cons a rest ih =>
    rw [List.dropWhile_cons, if_pos (h a (by simp))]
    exact ih (fun d hd => h d (by simp [hd]))

theorem trimList_allWs {l : List Char} (h : ∀ c ∈ l, isJsWs c = true) :
    trimList l = [] := by
  rw [trimList, trimLeft, dropWhile_all h]
  rfl

theorem normalizeLine_allWs {l : List Char} (h : ∀ c ∈ l, isJsWs c = true) :
    normalizeLine l = [] := by
  rw [normalizeLine, replacePipes_allWs h]
  exact trimList_allWs (fun c hc => cwAux_allWs h false c hc)

theorem normalizedLines_allWs {s : List Char} (h : ∀ c ∈ s, isJsWs c = true) :
    normalizedLines s = [] := by
  rw [normalizedLines, List.filter_eq_nil_iff]
  intro l hl
  obtain ⟨p, hp, rfl⟩ := List.mem_map.mp hl
  rw [normalizeLine_allWs (splitLines_allWs h p hp)]
  simp

/-- C3: `parse` is a total function (the embedding is a total Lean
function evaluated on every string), and on whitespace-only input it
returns no records, the default facility name, and an empty report
date. -/
theorem c3_totality (s : List Char) (h : ∀ c ∈ s, isJsWs c = true) :
    (parseDischargeText s).records = [] ∧
      (parseDischargeText s).hospitalName = s2l "Unknown Hospital" ∧
      (parseDischargeText s).reportDate = [] := by
  have hnl := normalizedLines_allWs h
  refine ⟨?_, ?_, ?_⟩
  · rw [parse_records, hnl]; rfl
  · show (headerOf s).1 = s2l "Unknown Hospital"
    rw [headerOf, hnl]
    simp [List.find?]
  · show (headerOf s).2 = []
    rw [headerOf, hnl]
    simp [List.find?]

/-- Witness for C3 at a concrete whitespace-only input. -/
theorem c3_witness :
    (∀ c ∈ s2l "   \n  \n   ", isJsWs c = true) ∧
      (parseDischargeText (s2l "   \n  \n   ")).records = [] ∧
      (parseDischargeText (s2l "   \n  \n   ")).hospitalName =
        s2l "Unknown Hospital" ∧
      (parseDischargeText (s2l "   \n  \n   ")).reportDate = [] :=
  ⟨by decide, c3_totality (s2l "   \n  \n   ") (by decide)⟩

/-! ## C2 and C4: the confidence schedule and its bounds -/

/-- Penalty applied in step 1 (identifier missing). -/
def idPen (line : List Char) : ℚ := if epicIdOf line = [] then 2/10 else 0

/-- Penalty applied in step 2 (date missing). -/
def datePen (line : List Char) : ℚ := if dischargeDateOf line = [] then 2/10 else 0

/-- Penalty applied in step 4 (outcome unrecognized). -/
def outcomePen (line : List Char) : ℚ :=
  if (dispFoundOf line).isSome then 0 else 1/10

/-- Penalty applied in step 5 (name unrecoverable). -/
def namePen (line : List Char) : ℚ := if patientRawOf line = [] then 2/10 else 0

/-- Final penalty for an absent (falsy) phone. -/
def phonePen (line : List Char) : ℚ :=
  if optTruthy (phonePairOf line).1 then 0 else 1/10

/-- Final penalty for an absent (falsy) PCP. -/
def pcpPen (line : List Char) : ℚ :=
  if optTruthy (pcpFinalOf line) then 0 else 1/10

/-- Final penalty for a payer the middle-section split resolved to the
literal `'Unknown'`.  Note the condition is on the internal insurance
value, which is the empty string (not `'Unknown'`) when the middle
section was never split. -/
def payerPen (line : List Char) : ℚ :=
  if (middleOf line).2.2 = s2l "Unknown" then 1/10 else 0

theorem if_sub_left {c : Prop} [Decidable c] (x p : ℚ) :
    (if c then x - p else x) = x - (if c then p else 0) := by
  split <;> ring

theorem if_sub_right {c : Prop} [Decidable c] (x p : ℚ) :
    (if c then x else x - p) = x - (if c then 0 else p) := by
  split <;> ring

/-- The confidence of a parsed row in closed form: 1.0 minus the seven
fixed penalties, rounded to two decimals and clamped below at 0. -/
theorem confidence_closed (line : List Char) :
    (parseDischargeRow line).confidence =
      max 0 (jsRound2 (1 - idPen line - datePen line - outcomePen line -
        namePen line - phonePen line - pcpPen line - payerPen line)) := by
  show max 0 _ = _
  rw [idPen, datePen, outcomePen, namePen, phonePen, pcpPen, payerPen,
    ← if_sub_left (1 : ℚ) (2/10), ← if_sub_left _ (2/10), ← if_sub_right _ (1/10),
    ← if_sub_left _ (2/10), ← if_sub_right _ (1/10), ← if_sub_right _ (1/10),
    ← if_sub_left _ (1/10)]

/-- C2 fails on the code: for the data line `"Doe, JohnEP123456789Home"`
the date anchor is missing, so the PCP+payer span is never split and the
internal insurance value stays empty; the returned payer defaults to
`"Unknown"` but the 0.1 payer-unresolved penalty is NOT applied.  The
claim's schedule (date 0.2, phone 0.1, PCP 0.1, payer 0.1) would give
0.5; the code returns 0.6. -/
theorem c2_counterexample :
    (parseDischargeText (s2l "Doe, JohnEP123456789Home")).records =
        [parseDischargeRow (s2l "Doe, JohnEP123456789Home")] ∧
      (parseDischargeRow (s2l "Doe, JohnEP123456789Home")).insurance =
        s2l "Unknown" ∧
      (parseDischargeRow (s2l "Doe, JohnEP123456789Home")).confidence = 3/5 ∧
      (parseDischargeRow (s2l "Doe, JohnEP123456789Home")).confidence ≠
        max 0 (jsRound2 (1 - (2/10 + 1/10 + 1/10 + 1/10))) := by
  refine ⟨?_, by decide, ?_, ?_⟩
  · rw [parse_records]
    have hf : (normalizedLines (s2l "Doe, JohnEP123456789Home")).filter
        (fun l => (matchEpic? l).isSome) =
        [s2l "Doe, JohnEP123456789Home"] := by decide
    rw [hf]
    rfl
  all_goals
    rw [confidence_closed]
    rw [idPen, if_neg (by decide : ¬ epicIdOf (s2l "Doe, JohnEP123456789Home") = [])]
    rw [datePen, if_pos (by decide : dischargeDateOf (s2l "Doe, JohnEP123456789Home") = [])]
    rw [outcomePen, if_pos (by decide : (dispFoundOf (s2l "Doe, JohnEP123456789Home")).isSome = true)]
    rw [namePen, if_neg (by decide : ¬ patientRawOf (s2l "Doe, JohnEP123456789Home") = [])]
    rw [phonePen, if_neg (by decide : ¬ optTruthy (phonePairOf (s2l "Doe, JohnEP123456789Home")).1 = true)]
    rw [pcpPen, if_neg (by decide : ¬ optTruthy (pcpFinalOf (s2l "Doe, JohnEP123456789Home")) = true)]
    rw [payerPen, if_neg (by decide : ¬ (middleOf (s2l "Doe, JohnEP123456789Home")).2.2 = s2l "Unknown")]
    simp only [jsRound2]
    norm_num [round_eq]

/-- C2 as amended: the confidence equals `max(0, round2(1.0 - sum of
penalties))` where the payer-unresolved penalty (0.1) applies exactly
when the middle-section split resolved the payer to the literal
`'Unknown'`; when the date (or identifier) anchor is missing, the span
is never split, the returned payer defaults to `"Unknown"`, and no
payer penalty is applied. -/
theorem c2_confidence_schedule (line : List Char) :
    (parseDischargeRow line).confidence =
      max 0 (jsRound2 (1 - (idPen line + datePen line + outcomePen line +
        namePen line + phonePen line + pcpPen line + payerPen line))) := by
  rw [confidence_closed]
  exact congrArg (fun q => max 0 (jsRound2 q)) (by ring)

theorem idPen_nonneg (line : List Char) : 0 ≤ idPen line := by
  rw [idPen]; split <;> norm_num

theorem datePen_nonneg (line : List Char) : 0 ≤ datePen line := by
  rw [datePen]; split <;> norm_num

theorem outcomePen_nonneg (line : List Char) : 0 ≤ outcomePen line := by
  rw [outcomePen]; split <;> norm_num

theorem namePen_nonneg (line : List Char) : 0 ≤ namePen line := by
  rw [namePen]; split <;> norm_num

theorem phonePen_nonneg (line : List Char) : 0 ≤ phonePen line := by
  rw [phonePen]; split <;> norm_num

theorem pcpPen_nonneg (line : List Char) : 0 ≤ pcpPen line := by
  rw [pcpPen]; split <;> norm_num

theorem payerPen_nonneg (line : List Char) : 0 ≤ payerPen line := by
  rw [payerPen]; split <;> norm_num

/-- C4: every record produced by `parse` has a confidence between 0
and 1 inclusive that is an integer multiple of 0.01. -/
theorem c4_confidence_bounds (text : List Char) (r : ParsedDischarge)
    (h : r ∈ (parseDischargeText text).records) :
    0 ≤ r.confidence ∧ r.confidence ≤ 1 ∧
      ∃ k : ℕ, r.confidence = (k : ℚ) / 100 := by
  rw [parse_records] at h
  obtain ⟨l, _, rfl⟩ := List.mem_map.mp h
  rw [confidence_closed]
  set q : ℚ := 1 - idPen l - datePen l - outcomePen l - namePen l -
    phonePen l - pcpPen l - payerPen l with hq
  have hq1 : q ≤ 1 := by
    have := idPen_nonneg l
    have := datePen_nonneg l
    have := outcomePen_nonneg l
    have := namePen_nonneg l
    have := phonePen_nonneg l
    have := pcpPen_nonneg l
    have := payerPen_nonneg l
    rw [hq]; linarith
  have hr1 : jsRound2 q ≤ 1 := by
    rw [jsRound2]
    have h100 : round (q * 100) ≤ 100 := by
      rw [round_eq]
      have : q * 100 + 1/2 ≤ (100 : ℚ) + 1/2 := by linarith
      calc ⌊q * 100 + 1/2⌋ ≤ ⌊(100 : ℚ) + 1/2⌋ := Int.floor_le_floor this
        _ = 100 := by norm_num
    calc ((round (q * 100) : ℤ) : ℚ) / 100 ≤ ((100 : ℤ) : ℚ) / 100 := by
          apply div_le_div_of_nonneg_right ?_ (by norm_num)
          · exact_mod_cast h100
      _ = 1 := by norm_num
  refine ⟨le_max_left 0 _, max_le (by norm_num) hr1, ?_⟩
  refine ⟨(max 0 (round (q * 100))).toNat, ?_⟩
  rw [jsRound2]
  rcases le_or_lt 0 (round (q * 100)) with hpos | hneg
  · rw [max_eq_right hpos]
    have hge : (0 : ℚ) ≤ ((round (q * 100) : ℤ) : ℚ) / 100 :=
      div_nonneg (by exact_mod_cast hpos) (by norm_num)
    rw [max_eq_right hge]
    congr 1
    exact_mod_cast (Int.toNat_of_nonneg hpos).symm
  · rw [max_eq_left hneg.le]
    have hle : ((round (q * 100) : ℤ) : ℚ) / 100 ≤ 0 := by
      apply div_nonpos_of_nonpos_of_nonneg _ (by norm_num)
      exact_mod_cast hneg.le
    rw [max_eq_left hle]
    norm_num

/-- Witness for C4 at a concrete input. -/
theorem c4_witness :
    0 ≤ (parseDischargeRow (s2l "Test, PatientEP00000000101-01-2024SomePlace")).confidence ∧
      (parseDischargeRow (s2l "Test, PatientEP00000000101-01-2024SomePlace")).confidence ≤ 1 ∧
      ∃ k : ℕ, (parseDischargeRow (s2l "Test, PatientEP00000000101-01-2024SomePlace")).confidence =
        (k : ℚ) / 100 := by
  apply c4_confidence_bounds (s2l "Test, PatientEP00000000101-01-2024SomePlace")
  rw [parse_records]
  have hf : (normalizedLines (s2l "Test, PatientEP00000000101-01-2024SomePlace")).filter
      (fun l => (matchEpic? l).isSome) =
      [s2l "Test, PatientEP00000000101-01-2024SomePlace"] := by decide
  rw [hf]
  exact List.mem_singleton.mpr rfl

/-! ## C5: phone extraction -/

theorem char_toNat_ofNat {m : Nat} (h : m < 55296) : (Char.ofNat m).toNat = m := by
  unfold Char.ofNat
  rw [dif_pos (Or.inl h)]
  rfl

theorem asciiLower_cases {c d : Char} (h : asciiLower c = d) :
    c = d ∨ (65 ≤ c.toNat ∧ c.toNat ≤ 90 ∧ d.toNat = c.toNat + 32) := by
  rw [asciiLower] at h
  by_cases hu : isUpperAZ c = true
  · rw [if_pos hu] at h
    right
    have hb : 65 ≤ c.toNat ∧ c.toNat ≤ 90 := by
      simpa [isUpperAZ, Bool.and_eq_true, decide_eq_true_eq] using hu
    exact ⟨hb.1, hb.2, by rw [← h, char_toNat_ofNat (by omega)]⟩
  · rw [if_neg hu] at h
    exact Or.inl h

/-- A successful `(missing)` marker match rules out a raw 10-digit
match at the same position: the first character after the whitespace is
`(`, which is not a digit. -/
theorem missing_raw_incompat {l : List Char}
    (h : (missingMatch? l).isSome = true) : rawMatch? l = none := by
  rw [missingMatch?] at h
  split at h
  · next hcond =>
    cases hr : l.dropWhile isJsWs with
    | nil => rw [hr] at hcond; simp [s2l] at hcond
    | cons c t =>
      rw [hr] at hcond
      have hc : asciiLower c = '(' := by
        have : (List.take 9 (c :: t)).map asciiLower = s2l "(missing)" := hcond
        simpa [s2l, List.take_succ_cons] using congrArg List.head? this
      have hcp : c = '(' := by
        rcases asciiLower_cases hc with h1 | ⟨hb1, _, h3⟩
        · exact h1
        · have h40 : ('(').toNat = 40 := rfl
          rw [h40] at h3
          omega
      subst hcp
      rw [rawMatch?, hr]
      simp [List.take_succ_cons, List.all_cons, isDigitChar]
  · exact absurd h (by simp)

theorem epicEndIdx_pos {line : List Char} (h : (matchEpic? line).isSome = true) :
    0 < epicEndIdxOf line := by
  rw [Option.isSome_iff_exists] at h
  obtain ⟨e, he⟩ := h
  obtain ⟨⟨ds, hds, _, _⟩, hidx⟩ := matchEpic_shape he
  have hne : e ≠ [] := by rw [hds]; simp
  rw [epicEndIdxOf, epicIdOf, he, Option.getD_some, if_neg hne]
  rw [Option.isSome_iff_exists] at hidx
  obtain ⟨i, hi⟩ := hidx
  rw [jsIndexOf, hi]
  show (0 : Int) < (i : Int) + (e.length : Int)
  have : 1 ≤ e.length := by rw [hds]; simp
  omega

theorem parseRow_phone (l : List Char) :
    (parseDischargeRow l).phoneNumber = (phonePairOf l).1 := rfl

theorem fmtMatch_ne_nil {l f : List Char} (h : fmtMatch? l = some f) : f ≠ [] := by
  rw [fmtMatch?] at h
  split at h
  · next hshape =>
    cases h
    intro hemp
    rw [hemp] at hshape
    simp [phoneFmtShape] at hshape
  · exact absurd h (by simp)

theorem fmtRawPhone_ne_nil (d : List Char) : fmtRawPhone d ≠ [] := by
  rw [fmtRawPhone]
  simp

/-- C5 as amended: in the text immediately following the identifier, a
`(missing)` marker yields an absent phone; otherwise a pre-formatted
`NNN-NNN-NNNN` anchored at the start (after optional whitespace) is
preserved verbatim; otherwise a raw 10-digit run anchored at the start
and followed by whitespace or an UPPERCASE ASCII letter is reformatted
via `fmtRawPhone` (same ten digits, same order); otherwise the phone is
absent — and it is never the empty string. -/
theorem c5_phone (line : List Char) (h : (matchEpic? line).isSome = true) :
    ((missingMatch? (afterEpicOf line)).isSome = true →
        (parseDischargeRow line).phoneNumber = none) ∧
      (missingMatch? (afterEpicOf line) = none →
        (fmtMatch? (afterEpicOf line)).isSome = true →
        (parseDischargeRow line).phoneNumber = fmtMatch? (afterEpicOf line)) ∧
      (missingMatch? (afterEpicOf line) = none →
        fmtMatch? (afterEpicOf line) = none →
        (parseDischargeRow line).phoneNumber =
          (rawMatch? (afterEpicOf line)).map fmtRawPhone) ∧
      (parseDischargeRow line).phoneNumber ≠ some [] := by
  have hpos := epicEndIdx_pos h
  rw [parseRow_phone, phonePairOf, if_pos hpos]
  refine ⟨?_, ?_, ?_, ?_⟩
  · intro hm
    rw [if_pos hm, missing_raw_incompat hm]
  · intro hm hf
    rw [Option.isSome_iff_exists] at hf
    obtain ⟨f, hf⟩ := hf
    rw [hm, hf]
    simp
  · intro hm hf
    rw [hm, hf]
    simp only [Option.isSome_none, Bool.false_eq_true, if_false]
    cases hr : rawMatch? (afterEpicOf line) <;> simp
  · split
    · next f hf =>
      split at hf
      · exact absurd hf (by simp)
      · intro hc
        simp only [Prod.fst] at hc
        exact fmtMatch_ne_nil hf (Option.some.inj hc)
    · next hf =>
      cases hr : rawMatch? (afterEpicOf line) with
      | some d =>
        simp only [hr, Prod.fst]
        intro hc
        exact fmtRawPhone_ne_nil d (Option.some.inj hc)
      | none => simp [hr]

/-- C5 fails on the code as stated: in
`"Doe, JohnEP1234567890123456789ab01-02-2024Home"` the text after the
identifier starts with the raw 10-digit run `0123456789` followed by
the letter `a`, yet the phone is absent — the code's lookahead
`(?=\s|[A-Z])` accepts only whitespace or an UPPERCASE letter, not any
letter. -/
theorem c5_counterexample :
    (afterEpicOf (s2l "Doe, JohnEP1234567890123456789ab01-02-2024Home")).take 11 =
        s2l "0123456789a" ∧
      ((s2l "0123456789").all isDigitChar = true ∧ isLowerAZ 'a' = true) ∧
      (parseDischargeRow
        (s2l "Doe, JohnEP1234567890123456789ab01-02-2024Home")).phoneNumber =
        none ∧
      (parseDischargeText
        (s2l "Doe, JohnEP1234567890123456789ab01-02-2024Home")).records =
        [parseDischargeRow (s2l "Doe, JohnEP1234567890123456789ab01-02-2024Home")] := by
  refine ⟨by decide, ⟨by decide, by decide⟩, by decide, ?_⟩
  rw [parse_records]
  have hf : (normalizedLines
      (s2l "Doe, JohnEP1234567890123456789ab01-02-2024Home")).filter
      (fun l => (matchEpic? l).isSome) =
      [s2l "Doe, JohnEP1234567890123456789ab01-02-2024Home"] := by decide
  rw [hf]
  rfl

/-- Witness for C5 at a concrete input containing a raw phone. -/
theorem c5_witness :
    ((missingMatch? (afterEpicOf (s2l "Smith, JaneEP9876543212025551234Jones, MD Bob01-15-2024Wilson, Amy MDBCBSHome"))).isSome = true →
        (parseDischargeRow (s2l "Smith, JaneEP9876543212025551234Jones, MD Bob01-15-2024Wilson, Amy MDBCBSHome")).phoneNumber = none) ∧
      (missingMatch? (afterEpicOf (s2l "Smith, JaneEP9876543212025551234Jones, MD Bob01-15-2024Wilson, Amy MDBCBSHome")) = none →
        (fmtMatch? (afterEpicOf (s2l "Smith, JaneEP9876543212025551234Jones, MD Bob01-15-2024Wilson, Amy MDBCBSHome"))).isSome = true →
        (parseDischargeRow (s2l "Smith, JaneEP9876543212025551234Jones, MD Bob01-15-2024Wilson, Amy MDBCBSHome")).phoneNumber =
          fmtMatch? (afterEpicOf (s2l "Smith, JaneEP9876543212025551234Jones, MD Bob01-15-2024Wilson, Amy MDBCBSHome"))) ∧
      (missingMatch? (afterEpicOf (s2l "Smith, JaneEP9876543212025551234Jones, MD Bob01-15-2024Wilson, Amy MDBCBSHome")) = none →
        fmtMatch? (afterEpicOf (s2l "Smith, JaneEP9876543212025551234Jones, MD Bob01-15-2024Wilson, Amy MDBCBSHome")) = none →
        (parseDischargeRow (s2l "Smith, JaneEP9876543212025551234Jones, MD Bob01-15-2024Wilson, Amy MDBCBSHome")).phoneNumber =
          (rawMatch? (afterEpicOf (s2l "Smith, JaneEP9876543212025551234Jones, MD Bob01-15-2024Wilson, Amy MDBCBSHome"))).map fmtRawPhone) ∧
      (parseDischargeRow (s2l "Smith, JaneEP9876543212025551234Jones, MD Bob01-15-2024Wilson, Amy MDBCBSHome")).phoneNumber ≠ some [] :=
  c5_phone (s2l "Smith, JaneEP9876543212025551234Jones, MD Bob01-15-2024Wilson, Amy MDBCBSHome") (by decide)

/-! ## C6: the date anchor -/

/-- Shape predicate for `NN-NN-NNNN`. -/
def dateShape (m : List Char) : Bool :=
  match m with
  | [a, b, '-', c, d, '-', e, f, g, h] => [a, b, c, d, e, f, g, h].all isDigitChar
  | _ => false

theorem dateHere_shape {l m : List Char} (h : dateHere? l = some m) :
    dateShape m = true ∧ m.isPrefixOf l := by
  unfold dateHere? at h
  split at h
  · next a b c d e f g hh rest =>
    split at h
    · next hdig =>
      cases h
      refine ⟨by simpa [dateShape] using hdig, ?_⟩
      simp [List.isPrefixOf_iff_prefix]
    · exact absurd h (by simp)
  · exact absurd h (by simp)

theorem matchDate_shape {l m : List Char} (h : matchDate? l = some m) :
    dateShape m = true ∧ (indexOfSub? m l).isSome := by
  obtain ⟨i, hi⟩ := scanFirst_some_ex dateHere? l m h
  obtain ⟨hshape, hpre⟩ := dateHere_shape hi
  exact ⟨hshape, prefixOf_drop_indexOf hpre⟩

theorem parseRow_date (l : List Char) :
    (parseDischargeRow l).dischargeDate = (matchDate? l).getD [] := rfl

/-- C6 as amended: the `eventDate` is the FIRST `NN-NN-NNNN` substring
anywhere in the whole line — the search is not restricted to the text
after the identifier, so a date-shaped substring occurring before the
identifier IS used when it comes first. -/
theorem c6_date (line d : List Char) (h : matchDate? line = some d) :
    (parseDischargeRow line).dischargeDate = d ∧ dateShape d = true ∧
      containsSub d line = true := by
  obtain ⟨hshape, hidx⟩ := matchDate_shape h
  refine ⟨?_, hshape, ?_⟩
  · rw [parseRow_date, h, Option.getD_some]
  · rw [containsSub, hidx]

/-- C6 fails on the code as stated: in
`"03-03-2000Doe, JohnEP12345678901-01-2024Home"` the date-shaped
substring `03-03-2000` lies entirely BEFORE the identifier, a second
date `01-01-2024` lies after it, and the code picks the one before the
identifier. -/
theorem c6_counterexample :
    (parseDischargeRow (s2l "03-03-2000Doe, JohnEP12345678901-01-2024Home")).dischargeDate =
        s2l "03-03-2000" ∧
      jsIndexOf (s2l "03-03-2000") (s2l "03-03-2000Doe, JohnEP12345678901-01-2024Home") <
        jsIndexOf (s2l "EP123456789") (s2l "03-03-2000Doe, JohnEP12345678901-01-2024Home") ∧
      (matchDate? (afterEpicOf (s2l "03-03-2000Doe, JohnEP12345678901-01-2024Home")) =
        some (s2l "01-01-2024")) ∧
      (parseDischargeText (s2l "03-03-2000Doe, JohnEP12345678901-01-2024Home")).records =
        [parseDischargeRow (s2l "03-03-2000Doe, JohnEP12345678901-01-2024Home")] := by
  refine ⟨by decide, by decide, by decide, ?_⟩
  rw [parse_records]
  have hf : (normalizedLines (s2l "03-03-2000Doe, JohnEP12345678901-01-2024Home")).filter
      (fun l => (matchEpic? l).isSome) =
      [s2l "03-03-2000Doe, JohnEP12345678901-01-2024Home"] := by decide
  rw [hf]
  rfl

/-- Witness for C6 at a concrete input. -/
theorem c6_witness :
    (parseDischargeRow (s2l "Doe, JohnEP12345678901-01-2024Home")).dischargeDate =
        s2l "01-01-2024" ∧
      dateShape (s2l "01-01-2024") = true ∧
      containsSub (s2l "01-01-2024") (s2l "Doe, JohnEP12345678901-01-2024Home") = true :=
  c6_date (s2l "Doe, JohnEP12345678901-01-2024Home") (s2l "01-01-2024") (by decide)

/-! ## C7: the middle-segment splitter -/

/-- Written from the spec's words (§4.5): scan the payer vocabulary in
descending length order; the first entry occurring anywhere in the span
is the payer and everything before its leftmost occurrence (trimmed,
empty becomes absent) is the PCP; with no vocabulary hit, a whole-word
credential token makes the entire span the PCP with payer `"Unknown"`;
otherwise the entire span is the payer verbatim, or `"Unknown"` if
empty. -/
def splitSpec (span : List Char) : Option (List Char) × List Char :=
  match (sortByLenDesc INSURANCE_PATTERNS).find? (fun p => containsSub p span) with
  | some p =>
    (((fun pcp => if pcp = [] then none else some pcp)
        (trimList (span.take ((indexOfSub? p span).getD 0)))), p)
  | none =>
    if credTest span then (some span, s2l "Unknown")
    else (none, if span = [] then s2l "Unknown" else span)

theorem findPattern_none {ps : List (List Char)} {text : List Char}
    (h : findPattern ps text = none) :
    ps.find? (fun p => containsSub p text) = none := by
  induction ps with
  | nil => rfl
  | cons p rest ih =>
    rw [findPattern] at h
    rw [List.find?]
    cases hi : indexOfSub? p text with
    | some i => rw [hi] at h; exact absurd h (by simp)
    | none =>
      rw [hi] at h
      have : containsSub p text = false := by rw [containsSub, hi]; rfl
      rw [this]
      exact ih h

theorem findPattern_some {ps : List (List Char)} {text p : List Char} {i : Nat}
    (h : findPattern ps text = some (p, i)) :
    ps.find? (fun q => containsSub q text) = some p ∧
      indexOfSub? p text = some i := by
  induction ps with
  | nil => exact absurd h (by simp [findPattern])
  | cons q rest ih =>
    rw [findPattern] at h
    rw [List.find?]
    cases hi : indexOfSub? q text with
    | some j =>
      rw [hi] at h
      have hpq : q = p ∧ j = i := by
        have := Option.some.inj h
        exact ⟨congrArg Prod.fst this, congrArg Prod.snd this⟩
      obtain ⟨rfl, rfl⟩ := hpq
      have : containsSub q text = true := by rw [containsSub, hi]; rfl
      rw [this]
      exact ⟨rfl, hi⟩
    | none =>
      rw [hi] at h
      have : containsSub q text = false := by rw [containsSub, hi]; rfl
      rw [this]
      exact ih h

theorem indexOfSub_le_length {p l : List Char} {i : Nat}
    (h : indexOfSub? p l = some i) : i ≤ l.length := by
  induction l generalizing i with
  | nil =>
    rw [indexOfSub?] at h
    split at h
    · cases h; exact Nat.le_refl _
    · exact absurd h (by simp)
  | cons c t ih =>
    rw [indexOfSub?] at h
    split at h
    · cases h; exact Nat.zero_le _
    · cases hj : indexOfSub? p t with
      | some j =>
        rw [hj] at h
        cases h
        exact Nat.succ_le_succ (ih hj)
      | none => rw [hj] at h; exact absurd h (by simp)

theorem subJS_zero_take {l : List Char} {i : Nat} (h : i ≤ l.length) :
    subJS l 0 (i : Int) = l.take i := by
  rw [subJS]
  have h1 : min (0 : Int) (l.length : Int) = 0 :=
    min_eq_left (by exact_mod_cast Nat.zero_le _)
  have h2 : min (i : Int) (l.length : Int) = (i : Int) :=
    min_eq_left (by exact_mod_cast h)
  simp only [h1, h2, max_self]
  have h3 : max (0 : Int) (i : Int) = (i : Int) :=
    max_eq_right (by exact_mod_cast Nat.zero_le _)
  simp only [h3]
  have h4 : min (0 : Int) (i : Int) = 0 :=
    min_eq_left (by exact_mod_cast Nat.zero_le _)
  have h5 : max (0 : Int) (i : Int) = (i : Int) := h3
  simp only [max_self, h4, h5]
  simp [Int.toNat_natCast]

/-- C7: the implemented splitter refines the spec's description on
every trimmed span. -/
theorem c7_split (span : List Char) (htrim : trimList span = span) :
    splitPcpAndInsurance span = splitSpec span := by
  by_cases hemp : span = []
  · subst hemp; decide
  · rw [splitPcpAndInsurance, splitSpec, if_neg hemp]
    cases hfp : findPattern (sortByLenDesc INSURANCE_PATTERNS) span with
    | some pi₀ =>
      obtain ⟨p, i⟩ := pi₀
      obtain ⟨hfind, hidx⟩ := findPattern_some hfp
      rw [hfind]
      simp only
      rw [hidx, Option.getD_some, subJS_zero_take (indexOfSub_le_length hidx)]
    | none =>
      rw [findPattern_none hfp]
      simp only
      rw [htrim]

/-- Witness for C7 at a concrete span containing a vocabulary entry. -/
theorem c7_witness :
    splitPcpAndInsurance (s2l "Wilson, Amy MDBCBS") =
      splitSpec (s2l "Wilson, Amy MDBCBS") :=
  c7_split (s2l "Wilson, Amy MDBCBS") (by decide)

/-! ## Trim idempotence (shared by C8 and C9) -/

theorem headIsWs_dropWhile (l : List Char) :
    headIsWs (l.dropWhile isJsWs) = false := by
  induction l with
  | nil => rfl
  | cons c rest ih =>
    rw [List.dropWhile_cons]
    by_cases hc : isJsWs c = true
    · rw [if_pos hc]; exact ih
    · rw [if_neg hc]
      show isJsWs c = false
      exact Bool.not_eq_true _ ▸ (by simpa using hc)

theorem headIsWs_trimLeft (l : List Char) : headIsWs (trimLeft l) = false :=
  headIsWs_dropWhile l

theorem trimLeft_of_head_not_ws {l : List Char} (h : headIsWs l = false) :
    trimLeft l = l := by
  cases l with
  | nil => rfl
  | cons c rest =>
    rw [trimLeft, List.dropWhile_cons, if_neg]
    rw [show headIsWs (c :: rest) = isJsWs c from rfl] at h
    simp [h]

theorem dropWhile_suffix_ex (p : Char → Bool) (l : List Char) :
    ∃ s, s ++ l.dropWhile p = l := by
  induction l with
  | nil => exact ⟨[], rfl⟩
  | cons c rest ih =>
    rw [List.dropWhile_cons]
    by_cases hc : p c = true
    · obtain ⟨s, hs⟩ := ih
      exact ⟨c :: s, by rw [if_pos hc]; simp [hs]⟩
    · exact ⟨[], by rw [if_neg hc]; rfl⟩

theorem trimRight_prefix_ex (l : List Char) : ∃ t, trimRight l ++ t = l := by
  obtain ⟨s, hs⟩ := dropWhile_suffix_ex isJsWs l.reverse
  refine ⟨s.reverse, ?_⟩
  rw [trimRight]
  have := congrArg List.reverse hs
  rw [List.reverse_append, List.reverse_reverse] at this
  exact this

theorem headIsWs_trimRight {l : List Char} (h : headIsWs l = false) :
    headIsWs (trimRight l) = false := by
  obtain ⟨t, ht⟩ := trimRight_prefix_ex l
  cases htr : trimRight l with
  | nil => rfl
  | cons c cs =>
    rw [htr] at ht
    have : l = c :: (cs ++ t) := by rw [← ht]; simp
    rw [this] at h
    exact h

theorem reverse_trimRight (l : List Char) :
    (trimRight l).reverse = l.reverse.dropWhile isJsWs := by
  rw [trimRight, List.reverse_reverse]

theorem trimRight_of_last_not_ws {l : List Char}
    (h : headIsWs l.reverse = false) : trimRight l = l := by
  have : (trimRight l).reverse = l.reverse := by
    rw [reverse_trimRight]
    exact trimLeft_of_head_not_ws h
  have := congrArg List.reverse this
  simpa using this

theorem headIsWs_reverse_trimList (l : List Char) :
    headIsWs (trimList l).reverse = false := by
  rw [trimList, reverse_trimRight]
  exact headIsWs_dropWhile _

theorem headIsWs_trimList (l : List Char) : headIsWs (trimList l) = false :=
  headIsWs_trimRight (headIsWs_trimLeft l)

theorem trimList_of_trimmed {l : List Char} (h1 : headIsWs l = false)
    (h2 : headIsWs l.reverse = false) : trimList l = l := by
  rw [trimList, trimLeft_of_head_not_ws h1]
  exact trimRight_of_last_not_ws h2

theorem trimList_idem (l : List Char) : trimList (trimList l) = trimList l :=
  trimList_of_trimmed (headIsWs_trimList l) (headIsWs_reverse_trimList l)

/-! ## C9: payer closure -/

theorem mem_insertByLen {x y : List Char} {l : List (List Char)} :
    x ∈ insertByLen y l ↔ x = y ∨ x ∈ l := by
  induction l with
  | nil => simp [insertByLen]
  | cons z zs ih =>
    rw [insertByLen]
    split
    · simp [or_comm, or_assoc, or_left_comm]
    · rw [List.mem_cons, ih, List.mem_cons]
      tauto

theorem mem_sortFold {x : List Char} :
    ∀ (l : List (List Char)) (acc : List (List Char)),
      (x ∈ l.foldl (fun acc y => insertByLen y acc) acc ↔ x ∈ acc ∨ x ∈ l) := by
  intro l
  induction l with
  | nil => intro acc; simp
  | cons y ys ih =>
    intro acc
    rw [List.foldl_cons, ih, mem_insertByLen]
    simp [or_comm, or_assoc, or_left_comm]

theorem mem_sortByLenDesc {x : List Char} {l : List (List Char)} :
    x ∈ sortByLenDesc l ↔ x ∈ l := by
  rw [sortByLenDesc, mem_sortFold]
  simp

/-- Case analysis on the payer component returned by the splitter. -/
theorem split_snd_cases (span : List Char) (h : trimList span = span) :
    (splitPcpAndInsurance span).2 ∈ INSURANCE_PATTERNS ∨
      (splitPcpAndInsurance span).2 = s2l "Unknown" ∨
      ((splitPcpAndInsurance span).2 = span ∧ span ≠ [] ∧
        credTest span = false ∧
        ∀ p ∈ INSURANCE_PATTERNS, containsSub p span = false) := by
  rw [splitPcpAndInsurance]
  by_cases hemp : span = []
  · rw [if_pos hemp]
    exact Or.inr (Or.inl rfl)
  · rw [if_neg hemp]
    cases hfp : findPattern (sortByLenDesc INSURANCE_PATTERNS) span with
    | some pi₀ =>
      obtain ⟨p, i⟩ := pi₀
      obtain ⟨hfind, _⟩ := findPattern_some hfp
      left
      have hmem : p ∈ sortByLenDesc INSURANCE_PATTERNS :=
        List.mem_of_find?_eq_some hfind
      exact mem_sortByLenDesc.mp hmem
    | none =>
      have hnone := findPattern_none hfp
      rw [List.find?_eq_none] at hnone
      by_cases hcred : credTest span = true
      · rw [if_pos hcred]
        exact Or.inr (Or.inl rfl)
      · rw [if_neg hcred]
        rw [h]
        rw [if_neg hemp]
        refine Or.inr (Or.inr ⟨rfl, hemp, by simpa using hcred, ?_⟩)
        intro p hp
        have := hnone p (mem_sortByLenDesc.mpr hp)
        simpa using this

theorem parseRow_insurance (l : List Char) :
    (parseDischargeRow l).insurance =
      if (middleOf l).2.2 = [] then s2l "Unknown" else (middleOf l).2.2 := rfl

theorem middle_ins_cases (l : List Char) :
    (middleOf l).2.2 = [] ∨
      (middleOf l).2.2 = (splitPcpAndInsurance (pcpSpanOf l)).2 := by
  rw [middleOf]
  split
  · right; rfl
  · left; rfl

/-- C9 as amended: the payer of every produced record is a vocabulary
member, or exactly `"Unknown"`, or — when the span matches no
vocabulary entry and contains no credential token — the verbatim
trimmed PCP+payer span (a non-empty string in which no vocabulary entry
occurs). -/
theorem c9_payer (text : List Char) (r : ParsedDischarge)
    (h : r ∈ (parseDischargeText text).records) :
    r.insurance ∈ INSURANCE_PATTERNS ∨ r.insurance = s2l "Unknown" ∨
      (r.insurance ≠ [] ∧ credTest r.insurance = false ∧
        ∀ p ∈ INSURANCE_PATTERNS, containsSub p r.insurance = false) := by
  rw [parse_records] at h
  obtain ⟨l, _, rfl⟩ := List.mem_map.mp h
  rw [parseRow_insurance]
  rcases middle_ins_cases l with hmid | hmid
  · rw [hmid, if_pos rfl]
    exact Or.inr (Or.inl rfl)
  · rw [hmid]
    by_cases hsplit : (splitPcpAndInsurance (pcpSpanOf l)).2 = []
    · rw [if_pos hsplit]
      exact Or.inr (Or.inl rfl)
    · rw [if_neg hsplit]
      have hspan : trimList (pcpSpanOf l) = pcpSpanOf l := by
        rw [pcpSpanOf]
        exact trimList_idem _
      rcases split_snd_cases (pcpSpanOf l) hspan with h1 | h1 | ⟨h1, h2, h3, h4⟩
      · exact Or.inl h1
      · exact Or.inr (Or.inl h1)
      · rw [h1]
        exact Or.inr (Or.inr ⟨h2, h3, h4⟩)

/-- C9 fails on the code as stated: on
`"Doe, JohnEP12345678901-01-2024SomethingElseHome"` the middle span
`SomethingElse` matches no vocabulary entry and has no credential
token, so the splitter returns it verbatim: the payer is the string
`"SomethingElse"`, which is neither a vocabulary member nor
`"Unknown"`. -/
theorem c9_counterexample :
    (parseDischargeRow
        (s2l "Doe, JohnEP12345678901-01-2024SomethingElseHome")).insurance =
        s2l "SomethingElse" ∧
      s2l "SomethingElse" ∉ INSURANCE_PATTERNS ∧
      s2l "SomethingElse" ≠ s2l "Unknown" ∧
      (parseDischargeText
        (s2l "Doe, JohnEP12345678901-01-2024SomethingElseHome")).records =
        [parseDischargeRow (s2l "Doe, JohnEP12345678901-01-2024SomethingElseHome")] := by
  refine ⟨by decide, by decide, by decide, ?_⟩
  rw [parse_records]
  have hf : (normalizedLines
      (s2l "Doe, JohnEP12345678901-01-2024SomethingElseHome")).filter
      (fun l => (matchEpic? l).isSome) =
      [s2l "Doe, JohnEP12345678901-01-2024SomethingElseHome"] := by decide
  rw [hf]
  rfl

/-- Witness for C9 at a concrete input. -/
theorem c9_witness :
    (parseDischargeRow (s2l "Doe, JohnEP12345678901-01-2024Home")).insurance ∈
        INSURANCE_PATTERNS ∨
      (parseDischargeRow (s2l "Doe, JohnEP12345678901-01-2024Home")).insurance =
        s2l "Unknown" ∨
      ((parseDischargeRow (s2l "Doe, JohnEP12345678901-01-2024Home")).insurance ≠ [] ∧
        credTest (parseDischargeRow (s2l "Doe, JohnEP12345678901-01-2024Home")).insurance = false ∧
        ∀ p ∈ INSURANCE_PATTERNS,
          containsSub p (parseDischargeRow (s2l "Doe, JohnEP12345678901-01-2024Home")).insurance = false) := by
  apply c9_payer (s2l "Doe, JohnEP12345678901-01-2024Home")
  rw [parse_records]
  have hf : (normalizedLines (s2l "Doe, JohnEP12345678901-01-2024Home")).filter
      (fun l => (matchEpic? l).isSome) =
      [s2l "Doe, JohnEP12345678901-01-2024Home"] := by decide
  rw [hf]
  exact List.mem_singleton.mpr rfl

/-! ## C8: name-normalizer idempotence -/

/-- C8 fails on the code as stated: a name carrying the credential
twice, `"Sloan, MD MD Mark"`, rewrites to `"Sloan, MD Mark MD"`, which
matches the wrong-order pattern again and rewrites once more to
`"Sloan, Mark MD MD"`. -/
theorem c8_counterexample :
    normalizeProviderName (normalizeProviderName (s2l "Sloan, MD MD Mark")) ≠
        normalizeProviderName (s2l "Sloan, MD MD Mark") ∧
      normalizeProviderName (s2l "Sloan, MD MD Mark") = s2l "Sloan, MD Mark MD" ∧
      normalizeProviderName (normalizeProviderName (s2l "Sloan, MD MD Mark")) =
        s2l "Sloan, Mark MD MD" := by
  refine ⟨by decide, by decide, by decide⟩

theorem isJsWs_false_of_bounds {c : Char} (h1 : 33 ≤ c.toNat)
    (h2 : c.toNat ≤ 159) : isJsWs c = false := by
  simp only [isJsWs, Bool.or_eq_false_iff, Bool.and_eq_false_iff,
    decide_eq_false_iff_not]
  omega

theorem isJsWs_asciiUpper (x : Char) : isJsWs (asciiUpper x) = isJsWs x := by
  rw [asciiUpper]
  by_cases hl : isLowerAZ x = true
  · rw [if_pos hl]
    have hb : 97 ≤ x.toNat ∧ x.toNat ≤ 122 := by
      simpa [isLowerAZ, Bool.and_eq_true, decide_eq_true_eq] using hl
    have ht : (Char.ofNat (x.toNat - 32)).toNat = x.toNat - 32 :=
      char_toNat_ofNat (by omega)
    rw [isJsWs_false_of_bounds (by omega) (by omega),
      isJsWs_false_of_bounds (by omega) (by omega)]
  · rw [if_neg hl]

theorem isJsWs_asciiLower (x : Char) : isJsWs (asciiLower x) = isJsWs x := by
  rw [asciiLower]
  by_cases hu : isUpperAZ x = true
  · rw [if_pos hu]
    have hb : 65 ≤ x.toNat ∧ x.toNat ≤ 90 := by
      simpa [isUpperAZ, Bool.and_eq_true, decide_eq_true_eq] using hu
    have ht : (Char.ofNat (x.toNat + 32)).toNat = x.toNat + 32 :=
      char_toNat_ofNat (by omega)
    rw [isJsWs_false_of_bounds (by omega) (by omega),
      isJsWs_false_of_bounds (by omega) (by omega)]
  · rw [if_neg hu]

theorem headIsWs_append_left {a b : List Char} (ha : a ≠ []) :
    headIsWs (a ++ b) = headIsWs a := by
  cases a with
  | nil => exact absurd rfl ha
  | cons c t => rfl

theorem headIsWs_rev_append {a b : List Char} (hb : b ≠ []) :
    headIsWs (a ++ b).reverse = headIsWs b.reverse := by
  rw [List.reverse_append]
  exact headIsWs_append_left (by simp [hb])

theorem tryCreds_spec {cs : List (List Char)} {r2 g2 g3 : List Char}
    (h : tryCreds cs r2 = some (g2, g3)) :
    ∃ c ∈ cs, ciPrefix c r2 = true ∧ g2 = r2.take c.length := by
  induction cs with
  | nil => exact absurd h (by simp [tryCreds])
  | cons c cs ih =>
    rw [tryCreds] at h
    by_cases hc : ciPrefix c r2 = true
    · rw [if_pos hc] at h
      cases hw : wsPlusDotPlus? (r2.drop c.length) with
      | some g3' =>
        rw [hw] at h
        have hg2 : r2.take c.length = g2 := congrArg Prod.fst (Option.some.inj h)
        exact ⟨c, by simp, hc, hg2.symm⟩
      | none =>
        rw [hw] at h
        obtain ⟨c', hc', hp, hg⟩ := ih h
        exact ⟨c', by simp [hc'], hp, hg⟩
    · rw [if_neg hc] at h
      obtain ⟨c', hc', hp, hg⟩ := ih h
      exact ⟨c', by simp [hc'], hp, hg⟩

theorem matchWrongOrder_parts {t g1 g2 g3 : List Char}
    (h : matchWrongOrder t = some (g1, g2, g3)) :
    (∃ d t', t = d :: t' ∧ ∃ g1', g1 = d :: g1') ∧
      ∃ c ∈ CREDS, g2.map asciiLower = c.map asciiLower ∧ g2 ≠ [] := by
  rw [matchWrongOrder] at h
  split at h
  · exact absurd h (by simp)
  · next i hidx =>
    split at h
    · exact absurd h (by simp)
    · split at h
      · exact absurd h (by simp)
      · next hi0 _ =>
        split at h
        · next gg htc =>
          have hinj := Option.some.inj h
          have hg1 : t.take i = g1 := congrArg Prod.fst hinj
          have hg2 : gg.1 = g2 := congrArg (fun x => x.2.1) hinj
          have htc' : tryCreds CREDS ((t.drop (i + 1)).dropWhile isJsWs) =
              some (gg.1, gg.2) := by rw [htc]
          obtain ⟨c, hc, hp, hgA⟩ := tryCreds_spec htc'
          constructor
          · cases t with
            | nil => simp [List.findIdx?] at hidx
            | cons d t' =>
              refine ⟨d, t', rfl, t'.take (i - 1), ?_⟩
              rw [← hg1]
              cases i with
              | zero => exact absurd rfl hi0
              | succ j => simp [List.take_succ_cons]
          · have hmap : g2.map asciiLower = c.map asciiLower := by
              rw [← hg2, hgA]
              simpa [ciPrefix] using hp
            refine ⟨c, hc, hmap, ?_⟩
            intro hemp
            have hcl : c.length ≠ 0 := by
              intro hc0
              rw [List.length_eq_zero] at hc0
              subst hc0
              simp [CREDS, s2l] at hc
            have := congrArg List.length hmap
            rw [hemp] at this
            simp at this
            exact hcl this.symm
        · exact absurd h (by simp)

/-- The output of `normalizeProviderName` is trimmed: it starts with
the first (non-whitespace) character of the trimmed input and ends with
an uppercased credential letter. -/
theorem trim_normalize (s : List Char) :
    trimList (normalizeProviderName s) = normalizeProviderName s := by
  by_cases hs : s = []
  · subst hs; rfl
  · rw [normalizeProviderName, if_neg hs]
    cases hm : matchWrongOrder (trimList s) with
    | none =>
      simp only [hm]
      exact trimList_idem s
    | some g =>
      obtain ⟨g1, gg⟩ := g
      obtain ⟨g2, g3⟩ := gg
      simp only [hm]
      obtain ⟨⟨d, t', hts, g1', hg1⟩, c, hc, hmap, hg2ne⟩ :=
        matchWrongOrder_parts hm
      apply trimList_of_trimmed
      · rw [hg1]
        show isJsWs d = false
        have hh := headIsWs_trimList s
        rw [hts] at hh
        exact hh
      · rw [headIsWs_rev_append (by simp : (' ' :: g2.map asciiUpper) ≠ [])]
        cases hU : g2.reverse with
        | nil =>
          have : g2 = [] := by simpa using congrArg List.reverse hU
          exact absurd this hg2ne
        | cons d0 r0 =>
          have hUrev : (' ' :: g2.map asciiUpper).reverse =
              asciiUpper d0 :: (r0.map asciiUpper ++ [' ']) := by
            rw [List.reverse_cons, ← List.map_reverse, hU]
            simp
          rw [hUrev]
          show isJsWs (asciiUpper d0) = false
          rw [isJsWs_asciiUpper]
          have hmaprev : g2.reverse.map asciiLower = c.reverse.map asciiLower := by
            rw [List.map_reverse, List.map_reverse, hmap]
          rw [hU] at hmaprev
          have hlow : isJsWs (asciiLower d0) = false := by
            simp only [CREDS, s2l, List.mem_cons, List.not_mem_nil, or_false] at hc
            rcases hc with rfl | rfl | rfl | rfl | rfl | rfl | rfl <;>
              · have hd0 := congrArg List.head? hmaprev
                simp only [List.map_cons, List.head?_cons, List.map_reverse] at hd0
                rw [show asciiLower d0 = _ from Option.some.inj (by simpa using hd0)]
                decide
          rw [isJsWs_asciiLower] at hlow
          exact hlow

/-- Inputs that are trimmed and do not match the wrong-order pattern
pass through the normalizer unchanged. -/
theorem normalize_fixed {u : List Char} (hm : matchWrongOrder u = none)
    (ht : trimList u = u) : normalizeProviderName u = u := by
  by_cases hu : u = []
  · subst hu; rfl
  · rw [normalizeProviderName, if_neg hu, ht]
    simp only [hm]

/-- C8 as amended: the normalizer is idempotent on every input whose
once-normalized form does not match the wrong-order pattern again.  (On
inputs whose rewritten form matches again — the given-name group itself
starts with a credential token, as in `"Sloan, MD MD Mark"` — a second
application rewrites once more, so unrestricted idempotence fails.) -/
theorem c8_normalizer_idem (s : List Char)
    (h : matchWrongOrder (normalizeProviderName s) = none) :
    normalizeProviderName (normalizeProviderName s) = normalizeProviderName s :=
  normalize_fixed h (trim_normalize s)

/-- Witness for C8 at a concrete input that the normalizer rewrites. -/
theorem c8_witness :
    normalizeProviderName (normalizeProviderName (s2l "Sloan, MD Mark")) =
      normalizeProviderName (s2l "Sloan, MD Mark") :=
  c8_normalizer_idem (s2l "Sloan, MD Mark") (by decide)
